import Mathlib

/-!
Verification of the cached HZ font engine (`src/font_hz_file.c`).

The development shallow-embeds the glyph cache (`_font_cache_get`), the
glyph-file addressing arithmetic, the mixed-encoding text segmentation loop
(`rtgui_hz_file_font_draw_text`), the double-byte rasterizer
(`_rtgui_hz_file_font_draw_text`) and the metrics estimator
(`rtgui_hz_file_font_get_metrics`).

Machine integers: `rt_uint32_t` / `rt_ubase_t` arithmetic is carried out in
`Nat` with explicit reduction modulo `W = 2^32`; the signed `int` offset
arithmetic is carried out in `Int` and reduced modulo `W` where the C code
converts to an unsigned type.
-/

namespace HzFont

/-- Modulus of `rt_uint32_t` / `rt_ubase_t` (32-bit RT-Thread target). -/
def W : Nat := 4294967296

/-- A glyph bitmap: the `font_data_size` bytes stored behind a cache entry. -/
abbrev Bitmap := List Nat

/-- Modelled from the spec: the splay tree of `<rtgui/tree.h>` (declared via
`SPLAY_PROTOTYPE`/`SPLAY_GENERATE`, not part of `src/`) is, per spec §9, an
ordered map keyed by glyph code exposing `get/insert/evict-min/size`.  We
represent its abstract contents as an association list ordered by strictly
increasing key. -/
abbrev Cache := List (Nat × Bitmap)

/-- Keys of the cache, in storage (ascending) order. -/
def cacheKeys (c : Cache) : List Nat := c.map Prod.fst

/-- Modelled from the spec: `SPLAY_FIND` — look a key up in the ordered map. -/
def cacheFind (c : Cache) (k : Nat) : Option Bitmap :=
  match c with
  | [] => none
  | e :: rest => if e.1 = k then some e.2 else cacheFind rest k

/-- Modelled from the spec: `SPLAY_INSERT` — insert keeping key order; a
duplicate-key insert leaves the map unchanged (spec §4.1: "duplicate insert
is a no-op"). -/
def cacheInsert (c : Cache) (e : Nat × Bitmap) : Cache :=
  match c with
  | [] => [e]
  | x :: xs =>
    if e.1 < x.1 then e :: x :: xs
    else if e.1 = x.1 then x :: xs
    else x :: cacheInsert xs e

/-- The environment a cache call runs in: the font file's bytes, the record
size `R` (`font_data_size`), the pixel size `S` (`font_size`), and the
outcome of the external allocator and of `open` (opaque services). -/
structure HzEnv where
  file : List Nat
  R : Nat
  S : Nat
  allocOk : Bool
  openOk : Bool
deriving DecidableEq, Repr

/-- Mutable state of one `rtgui_hz_file_font`: the cache contents (the
`cache_root` tree together with `cache_size`), whether `fd` is open, and a
counter of file-I/O calls (`open`/`lseek`+`read`) performed so far. -/
structure HzState where
  cache : Cache
  fdOpen : Bool
  io : Nat
deriving DecidableEq, Repr

/-- The signed offset arithmetic of `_font_cache_get` (font_hz_file.c:103):
`94 * (((hz_id & 0xff) - 0xA0) - 1) + ((hz_id >> 8) - 0xA0) - 1`,
computed in C `int` arithmetic. -/
def hz_idx (hz_id : Nat) : Int :=
  94 * ((((hz_id % 256 : Nat) : Int) - 0xA0) - 1) + (((hz_id / 256 : Nat) : Int) - 0xA0) - 1

/-- The file offset (font_hz_file.c:103-104): the index is converted to
`rt_uint32_t` and multiplied by `font_data_size`, both modulo `2^32`. -/
def hz_seek (R : Nat) (hz_id : Nat) : Nat :=
  (((hz_idx hz_id) % (W : Int)).toNat * R) % W

/-- `lseek` + `read` of one record (font_hz_file.c:117-119): succeeds iff a
full `R` bytes are available at offset `seek`; a short read is a failure. -/
def readRecord (file : List Nat) (R seek : Nat) : Option Bitmap :=
  if seek + R ≤ file.length then some ((file.drop seek).take R) else none

/-- The load-and-insert tail of `_font_cache_get` (font_hz_file.c:116-148):
seek+read the record, then under the critical section evict the minimum-key
entry when the cache is full, insert the new entry and return its bitmap. -/
def loadInsert (env : HzEnv) (st : HzState) (hz_id : Nat) : Option Bitmap × HzState :=
  match readRecord env.file env.R (hz_seek env.R hz_id) with
  | none => (none, { st with io := st.io + 1 })
  | some data =>
    let st1 : HzState := { st with io := st.io + 1 }
    let c1 := if 64 ≤ st1.cache.length then st1.cache.tail else st1.cache
    (some data, { st1 with cache := cacheInsert c1 (hz_id, data) })

/-- `_font_cache_get` (font_hz_file.c:74-149): look the glyph code up; on a
hit return the cached bitmap with no I/O and no state change; on a miss,
allocate (may fail), lazily open the file (may fail), read the record (may
fail short), then evict-min-if-full and insert. -/
def font_cache_get (env : HzEnv) (st : HzState) (hz_id : Nat) : Option Bitmap × HzState :=
  match cacheFind st.cache hz_id with
  | some data => (some data, st)
  | none =>
    if env.allocOk then
      if st.fdOpen then loadInsert env st hz_id
      else if env.openOk then
        loadInsert env { st with fdOpen := true, io := st.io + 1 } hz_id
      else (none, { st with io := st.io + 1 })
    else (none, st)

/-- Run a sequence of `get` operations, keeping only the state. -/
def runGets (env : HzEnv) (st : HzState) (ops : List Nat) : HzState :=
  ops.foldl (fun s c => (font_cache_get env s c).2) st

/-- Well-formedness of the cache: keys strictly ascending (the ordered-map
representation invariant) and live count within the capacity `64`
(`HZ_CACHE_MAX`). -/
def CacheWF (st : HzState) : Prop :=
  (cacheKeys st.cache).Pairwise (· < ·) ∧ st.cache.length ≤ 64

instance (st : HzState) : Decidable (CacheWF st) := by
  unfold CacheWF; infer_instance

/-- The ASCII-scan condition of the segmentation loop
(font_hz_file.c:250): `*(str+len) < 0x80 && *(str+len)`. -/
def asciiByte (b : Nat) : Bool := decide (b < 0x80) && decide (b ≠ 0)

/-- The double-byte-scan condition of the segmentation loop
(font_hz_file.c:262): `*(str+len) >= 0x80`. -/
def hzByte (b : Nat) : Bool := !decide (b < 0x80)

/-- The outer `while (str_len > 0)` segmentation loop of
`rtgui_hz_file_font_draw_text` (font_hz_file.c:247-270), as a run
decomposition: scan a maximal ASCII run, then a maximal double-byte run,
emit the non-empty ones and continue on the remainder.  `false` marks an
ASCII run, `true` a double-byte run.  The fuel argument bounds the number of
outer iterations; `l.length` is always enough on NUL-free input because each
iteration then consumes at least one byte. -/
def segLoop : Nat → List Nat → List (Bool × List Nat)
  | 0, _ => []
  | fuel + 1, l =>
    if l.isEmpty then []
    else
      let a := l.takeWhile asciiByte
      let r1 := l.dropWhile asciiByte
      let d := r1.takeWhile hzByte
      let r2 := r1.dropWhile hzByte
      (if a.isEmpty then [] else [(false, a)]) ++
        ((if d.isEmpty then [] else [(true, d)]) ++ segLoop fuel r2)

/-- Segmentation of a whole buffer (font_hz_file.c:247-270). -/
def segment (l : List Nat) : List (Bool × List Nat) := segLoop l.length l

/-- Concatenation of the bytes of a run list. -/
def runJoin (rs : List (Bool × List Nat)) : List Nat := (rs.map Prod.snd).flatten

/-- One pixel-drawing call issued by the rasterizer: `fg = true` for
`rtgui_dc_draw_point` (foreground), `fg = false` for
`rtgui_dc_draw_color_point` with the background color. -/
structure DrawEvent where
  fg : Bool
  x : Int
  y : Int
deriving DecidableEq, Repr

/-- The per-glyph triple loop of `_rtgui_hz_file_font_draw_text`
(font_hz_file.c:192-207): rows `i < h`, byte-columns `j < word_bytes`, bits
`k < 8` most-significant-first; a set bit inside the right clip edge paints
a foreground point at `(x1 + 8*j + k, y1 + i)`, otherwise a background
point is painted there when the DRAW_BACKGROUND text style is set. -/
def glyphEvents (bmp : Bitmap) (h wb : Nat) (bg : Bool) (x1 y1 x2 : Int) : List DrawEvent :=
  (List.range h).flatMap (fun i =>
    (List.range wb).flatMap (fun j =>
      (List.range 8).filterMap (fun k =>
        if ((bmp.getD (i * wb + j) 0) >>> (7 - k)) % 2 = 1 ∧ x1 + 8 * (j : Int) + (k : Int) < x2 then
          some ⟨true, x1 + 8 * (j : Int) + (k : Int), y1 + (i : Int)⟩
        else if bg then
          some ⟨false, x1 + 8 * (j : Int) + (k : Int), y1 + (i : Int)⟩
        else none)))

/-- The drawing height `h` of `_rtgui_hz_file_font_draw_text`
(font_hz_file.c:176-177): `font_size`, clipped to the rectangle height. -/
def hz_draw_height (S : Nat) (y1 y2 : Int) : Int :=
  if (S : Int) + y1 > y2 then y2 - y1 else (S : Int)

/-- `word_bytes` (font_hz_file.c:178): bytes per bitmap row. -/
def word_bytes (S : Nat) : Nat := (S + 7) / 8

/-- Result of the double-byte run loop: the pixel events issued, the indices
read from the text buffer (relative to the start of the run), the final
cache state, the final cursor `x1` and the number of loop iterations
(glyph pairs processed). -/
structure RunRes where
  events : List DrawEvent
  reads : List Nat
  st : HzState
  x1 : Int
  pairs : Nat
deriving DecidableEq, Repr

/-- The per-run `while (len > 0 && rect->x1 < rect->x2)` loop of
`_rtgui_hz_file_font_draw_text` (font_hz_file.c:182-214): read the two
bytes at the cursor (recorded in `reads`, even when they lie beyond the
buffer — `List.getD` then yields 0), fetch the glyph from the cache, emit
its pixel events if the bitmap was obtained, then advance `x1` by
`font_size`, the string position by 2 and decrement the `rt_ubase_t`
length by 2 (wrapping modulo `2^32`).  The fuel argument bounds the number
of iterations. -/
def draw_hz_loop (env : HzEnv) (bg : Bool) (h wb : Nat) (y1 x2 : Int) :
    Nat → HzState → List Nat → Nat → Nat → Int → RunRes
  | 0, st, _, _, _, x1 => ⟨[], [], st, x1, 0⟩
  | fuel + 1, st, buf, pos, len, x1 =>
    if 0 < len ∧ x1 < x2 then
      let b0 := buf.getD pos 0
      let b1 := buf.getD (pos + 1) 0
      let r := font_cache_get env st (b0 ||| (b1 <<< 8))
      let evs := match r.1 with
        | some bmp => glyphEvents bmp h wb bg x1 y1 x2
        | none => []
      let rest := draw_hz_loop env bg h wb y1 x2 fuel r.2 buf (pos + 2)
        ((len + (W - 2)) % W) (x1 + (env.S : Int))
      ⟨evs ++ rest.events, pos :: (pos + 1) :: rest.reads, rest.st, rest.x1, rest.pairs + 1⟩
    else ⟨[], [], st, x1, 0⟩

/-- Number of loop iterations after which the cursor, starting at `x1` and
advancing by `S` per iteration, first fails `x1 < x2`. -/
def stepsToClip (x1 x2 : Int) (S : Nat) : Nat :=
  if x1 < x2 then ((x2 - x1).toNat + S - 1) / S else 0

/-- The width computation of `rtgui_hz_file_font_get_metrics`
(font_hz_file.c:296-297): `font_size / 2 * strlen` in `rt_uint32_t`
arithmetic, then saturated at `0x7FFF`. -/
def hz_metrics_x2 (S len : Nat) : Nat :=
  let x2 := (S / 2 * len) % W
  if 0x7FFF ≤ x2 then 0x7FFF else x2

/-- The metrics rectangle. -/
structure MetricsRect where
  x1 : Int
  y1 : Int
  x2 : Int
  y2 : Int
deriving DecidableEq, Repr

/-- `rtgui_hz_file_font_get_metrics` (font_hz_file.c:294-298), as a function
of the pixel size `S` and the transcoded string's byte length `len`:
`x1 = y1 = 0`, `x2` the saturated width, `y2 = font_size`. -/
def rtgui_hz_file_font_get_metrics (S len : Nat) : MetricsRect :=
  ⟨0, 0, (hz_metrics_x2 S len : Int), (S : Int)⟩

/-! ### Concrete instances used to witness the theorems -/

/-- A one-record font file: record size 1, one byte `0xFF` at offset 0, so
glyph code `0xA1A1` (index 0) is present; allocator and `open` succeed. -/
def envW : HzEnv := ⟨[255], 1, 16, true, true⟩

/-- An environment whose allocator fails. -/
def envFail : HzEnv := ⟨[], 1, 16, false, true⟩

/-- The empty cache state with the file not yet open. -/
def st0 : HzState := ⟨[], false, 0⟩

/-- A full cache: 64 entries with keys `1..64`, file already open. -/
def stW64 : HzState := ⟨(List.range 64).map (fun i => (i + 1, [])), true, 0⟩

/-! ### Ordered-map lemmas -/

lemma cacheKeys_cons (x : Nat × Bitmap) (xs : Cache) :
    cacheKeys (x :: xs) = x.1 :: cacheKeys xs := rfl

lemma cacheFind_eq_none_iff (c : Cache) (k : Nat) :
    cacheFind c k = none ↔ k ∉ cacheKeys c := by
  induction c with
  | nil => simp [cacheFind, cacheKeys]
  | cons x xs ih =>
    simp only [cacheFind, cacheKeys_cons, List.mem_cons]
    by_cases h : x.1 = k
    · simp [h]
    · have : ¬ k = x.1 := fun hk => h hk.symm
      simp [h, ih, this]

lemma cacheInsert_cons_lt (x : Nat × Bitmap) (xs : Cache) (e : Nat × Bitmap)
    (h : e.1 < x.1) : cacheInsert (x :: xs) e = e :: x :: xs := by
  unfold cacheInsert; rw [if_pos h]

lemma cacheInsert_cons_dup (x : Nat × Bitmap) (xs : Cache) (e : Nat × Bitmap)
    (h1 : ¬ e.1 < x.1) (h2 : e.1 = x.1) : cacheInsert (x :: xs) e = x :: xs := by
  unfold cacheInsert; rw [if_neg h1, if_pos h2]

lemma cacheInsert_cons_gt (x : Nat × Bitmap) (xs : Cache) (e : Nat × Bitmap)
    (h1 : ¬ e.1 < x.1) (h2 : ¬ e.1 = x.1) :
    cacheInsert (x :: xs) e = x :: cacheInsert xs e := by
  unfold cacheInsert; rw [if_neg h1, if_neg h2]
  cases xs <;> rfl

lemma mem_cacheKeys_cacheInsert (c : Cache) (e : Nat × Bitmap) (k : Nat) :
    k ∈ cacheKeys (cacheInsert c e) ↔ k = e.1 ∨ k ∈ cacheKeys c := by
  induction c with
  | nil => simp [cacheInsert, cacheKeys]
  | cons x xs ih =>
    by_cases h1 : e.1 < x.1
    · rw [cacheInsert_cons_lt x xs e h1]
      simp only [cacheKeys_cons, List.mem_cons]
    · by_cases h2 : e.1 = x.1
      · rw [cacheInsert_cons_dup x xs e h1 h2]
        simp only [cacheKeys_cons, List.mem_cons]
        constructor
        · tauto
        · rintro (rfl | h)
          · exact Or.inl h2
          · exact h
      · rw [cacheInsert_cons_gt x xs e h1 h2]
        simp only [cacheKeys_cons, List.mem_cons, ih]
        tauto

lemma cacheInsert_pairwise (c : Cache) (e : Nat × Bitmap)
    (h : (cacheKeys c).Pairwise (· < ·)) :
    (cacheKeys (cacheInsert c e)).Pairwise (· < ·) := by
  induction c with
  | nil => simp [cacheInsert, cacheKeys]
  | cons x xs ih =>
    rw [cacheKeys_cons, List.pairwise_cons] at h
    obtain ⟨hx, hxs⟩ := h
    simp only [cacheInsert]
    by_cases h1 : e.1 < x.1
    · simp only [if_pos h1, cacheKeys_cons, List.pairwise_cons, List.mem_cons]
      refine ⟨?_, ?_, hxs⟩
      · rintro k (rfl | hk)
        · exact h1
        · exact lt_trans h1 (hx k hk)
      · exact hx
    · by_cases h2 : e.1 = x.1
      · simp only [if_neg h1, if_pos h2, cacheKeys_cons, List.pairwise_cons]
        exact ⟨hx, hxs⟩
      · have hgt : x.1 < e.1 := by omega
        simp only [if_neg h1, if_neg h2, cacheKeys_cons, List.pairwise_cons]
        refine ⟨?_, ih hxs⟩
        intro k hk
        rcases (mem_cacheKeys_cacheInsert xs e k).1 hk with rfl | hk2
        · exact hgt
        · exact hx k hk2

lemma cacheInsert_length_le (c : Cache) (e : Nat × Bitmap) :
    (cacheInsert c e).length ≤ c.length + 1 := by
  induction c with
  | nil => simp [cacheInsert]
  | cons x xs ih =>
    simp only [cacheInsert]
    by_cases h1 : e.1 < x.1
    · simp [if_pos h1]
    · by_cases h2 : e.1 = x.1
      · simp only [if_neg h1, if_pos h2, List.length_cons]
        omega
      · simp only [if_neg h1, if_neg h2, List.length_cons]
        omega

lemma cacheInsert_length_of_not_mem (c : Cache) (e : Nat × Bitmap)
    (h : e.1 ∉ cacheKeys c) : (cacheInsert c e).length = c.length + 1 := by
  induction c with
  | nil => simp [cacheInsert]
  | cons x xs ih =>
    rw [cacheKeys_cons, List.mem_cons] at h
    push_neg at h
    simp only [cacheInsert]
    by_cases h1 : e.1 < x.1
    · simp [if_pos h1]
    · simp only [if_neg h1, if_neg h.1, List.length_cons, ih h.2]

lemma cacheFind_cacheInsert_self (c : Cache) (e : Nat × Bitmap)
    (h : e.1 ∉ cacheKeys c) : cacheFind (cacheInsert c e) e.1 = some e.2 := by
  induction c with
  | nil => simp [cacheInsert, cacheFind]
  | cons x xs ih =>
    rw [cacheKeys_cons, List.mem_cons] at h
    push_neg at h
    simp only [cacheInsert]
    by_cases h1 : e.1 < x.1
    · simp [if_pos h1, cacheFind]
    · have hx : ¬ x.1 = e.1 := fun hk => h.1 hk.symm
      simp only [if_neg h1, if_neg h.1, cacheFind, if_neg hx]
      exact ih h.2

lemma cacheKeys_tail_subset (c : Cache) : ∀ k ∈ cacheKeys c.tail, k ∈ cacheKeys c := by
  cases c with
  | nil => simp
  | cons x xs => intro k hk; rw [cacheKeys_cons]; exact List.mem_cons_of_mem _ hk

/-! ### `font_cache_get` lemmas -/

lemma font_cache_get_hit (env : HzEnv) (st : HzState) (c : Nat) (d : Bitmap)
    (h : cacheFind st.cache c = some d) : font_cache_get env st c = (some d, st) := by
  unfold font_cache_get
  rw [h]

lemma loadInsert_fst (env : HzEnv) (st : HzState) (c : Nat) :
    (loadInsert env st c).1 = readRecord env.file env.R (hz_seek env.R c) := by
  unfold loadInsert
  cases readRecord env.file env.R (hz_seek env.R c) <;> rfl

lemma loadInsert_cache (env : HzEnv) (st : HzState) (c : Nat) :
    (loadInsert env st c).2.cache =
      match readRecord env.file env.R (hz_seek env.R c) with
      | none => st.cache
      | some d => cacheInsert (if 64 ≤ st.cache.length then st.cache.tail else st.cache) (c, d) := by
  unfold loadInsert
  cases readRecord env.file env.R (hz_seek env.R c) <;> rfl

/-- On a miss that returns a bitmap, the new cache is the old one (minus its
minimum entry when full) with the new entry inserted. -/
lemma font_cache_get_miss_cache (env : HzEnv) (st : HzState) (c : Nat) (d : Bitmap)
    (hfind : cacheFind st.cache c = none)
    (h : (font_cache_get env st c).1 = some d) :
    readRecord env.file env.R (hz_seek env.R c) = some d ∧
    (font_cache_get env st c).2.cache =
      cacheInsert (if 64 ≤ st.cache.length then st.cache.tail else st.cache) (c, d) := by
  unfold font_cache_get at h ⊢
  rw [hfind] at h ⊢
  by_cases ha : env.allocOk
  · simp only [if_pos ha] at h ⊢
    by_cases hf : st.fdOpen
    · simp only [if_pos hf] at h ⊢
      rw [loadInsert_fst] at h
      rw [loadInsert_cache]
      rw [h]
      exact ⟨rfl, rfl⟩
    · simp only [if_neg hf] at h ⊢
      by_cases ho : env.openOk
      · simp only [if_pos ho] at h ⊢
        rw [loadInsert_fst] at h
        rw [loadInsert_cache]
        rw [h]
        exact ⟨rfl, rfl⟩
      · simp only [if_neg ho] at h
        exact absurd h (by simp)
  · simp only [if_neg ha] at h
    exact absurd h (by simp)

/-- When `get` returns a bitmap, that bitmap is found in the resulting cache. -/
lemma font_cache_get_some_cached (env : HzEnv) (st : HzState) (c : Nat) (d : Bitmap)
    (h : (font_cache_get env st c).1 = some d) :
    cacheFind (font_cache_get env st c).2.cache c = some d := by
  cases hfind : cacheFind st.cache c with
  | some d' =>
    rw [font_cache_get_hit env st c d' hfind] at h ⊢
    simpa [hfind] using h
  | none =>
    obtain ⟨hrr, hc⟩ := font_cache_get_miss_cache env st c d hfind h
    rw [hc]
    apply cacheFind_cacheInsert_self
    have hnot : c ∉ cacheKeys st.cache := (cacheFind_eq_none_iff _ _).1 hfind
    by_cases h64 : 64 ≤ st.cache.length
    · simp only [if_pos h64]
      exact fun hm => hnot (cacheKeys_tail_subset _ _ hm)
    · simpa [if_neg h64] using hnot

/-- On any failing call the whole cache is left unchanged. -/
lemma font_cache_get_fst_none_cache (env : HzEnv) (st : HzState) (c : Nat)
    (h : (font_cache_get env st c).1 = none) :
    (font_cache_get env st c).2.cache = st.cache := by
  cases hfind : cacheFind st.cache c with
  | some d =>
    rw [font_cache_get_hit env st c d hfind] at h
    simp at h
  | none =>
    unfold font_cache_get at h ⊢
    rw [hfind] at h ⊢
    by_cases ha : env.allocOk
    · simp only [if_pos ha] at h ⊢
      by_cases hf : st.fdOpen
      · simp only [if_pos hf] at h ⊢
        rw [loadInsert_fst] at h
        rw [loadInsert_cache, h]
      · simp only [if_neg hf] at h ⊢
        by_cases ho : env.openOk
        · simp only [if_pos ho] at h ⊢
          rw [loadInsert_fst] at h
          rw [loadInsert_cache, h]
        · simp only [if_neg ho]
    · simp only [if_neg ha]

/-- Pairwise order survives dropping the head entry. -/
lemma cacheKeys_tail_pairwise (c : Cache) (h : (cacheKeys c).Pairwise (· < ·)) :
    (cacheKeys c.tail).Pairwise (· < ·) := by
  cases c with
  | nil => simp [cacheKeys]
  | cons x xs =>
    rw [cacheKeys_cons, List.pairwise_cons] at h
    exact h.2

/-- One `get` preserves the cache well-formedness invariant. -/
lemma font_cache_get_WF (env : HzEnv) (st : HzState) (c : Nat) (h : CacheWF st) :
    CacheWF (font_cache_get env st c).2 := by
  obtain ⟨hpw, hlen⟩ := h
  cases hr : (font_cache_get env st c).1 with
  | none =>
    have hc := font_cache_get_fst_none_cache env st c hr
    exact ⟨by rw [hc]; exact hpw, by rw [hc]; exact hlen⟩
  | some d =>
    cases hfind : cacheFind st.cache c with
    | some d' =>
      rw [font_cache_get_hit env st c d' hfind]
      exact ⟨hpw, hlen⟩
    | none =>
      obtain ⟨hrr, hc⟩ := font_cache_get_miss_cache env st c d hfind hr
      constructor
      · rw [hc]
        apply cacheInsert_pairwise
        by_cases h64 : 64 ≤ st.cache.length
        · simp only [if_pos h64]
          exact cacheKeys_tail_pairwise _ hpw
        · simpa [if_neg h64] using hpw
      · rw [hc]
        by_cases h64 : 64 ≤ st.cache.length
        · simp only [if_pos h64]
          have ht : st.cache.tail.length ≤ 63 := by
            rw [List.length_tail]; omega
          calc (cacheInsert st.cache.tail (c, d)).length
              ≤ st.cache.tail.length + 1 := cacheInsert_length_le _ _
            _ ≤ 64 := by omega
        · simp only [if_neg h64]
          calc (cacheInsert st.cache (c, d)).length
              ≤ st.cache.length + 1 := cacheInsert_length_le _ _
            _ ≤ 64 := by omega

/-- A miss whose allocation, open and read all succeed returns the record. -/
lemma font_cache_get_miss_success (env : HzEnv) (st : HzState) (c : Nat) (d : Bitmap)
    (hfind : cacheFind st.cache c = none) (ha : env.allocOk = true)
    (hrr : readRecord env.file env.R (hz_seek env.R c) = some d)
    (hopen : st.fdOpen = true ∨ env.openOk = true) :
    (font_cache_get env st c).1 = some d := by
  unfold font_cache_get
  rw [hfind]
  simp only [if_pos ha]
  by_cases hf : st.fdOpen
  · simp only [if_pos hf, loadInsert_fst]
    exact hrr
  · rcases hopen with h | h
    · exact absurd h hf
    · simp only [if_neg hf, if_pos h, loadInsert_fst]
      exact hrr

/-! ### Claim theorems -/

/-- C1: The glyph cache's live count never exceeds the capacity 64: every
sequence of `get` operations preserves `cache_size ≤ 64` (so the bound holds
after each operation), and when a miss is inserted while the cache already
holds 64 entries, exactly one prior entry — the one with the smallest
glyph-code key — is removed and the count remains 64. -/
theorem hz_cache_bound_and_eviction :
    (∀ (env : HzEnv) (st : HzState) (ops : List Nat),
        CacheWF st → CacheWF (runGets env st ops)) ∧
    (∀ (env : HzEnv) (st : HzState) (c : Nat), CacheWF st →
        st.cache.length = 64 → cacheFind st.cache c = none →
        ∀ d, (font_cache_get env st c).1 = some d →
          (font_cache_get env st c).2.cache.length = 64 ∧
          ∃ m, m ∈ cacheKeys st.cache ∧ (∀ k ∈ cacheKeys st.cache, m ≤ k) ∧
            m ∉ cacheKeys (font_cache_get env st c).2.cache ∧
            ∀ k, k ∈ cacheKeys (font_cache_get env st c).2.cache ↔
              ((k ∈ cacheKeys st.cache ∧ k ≠ m) ∨ k = c)) := by
  constructor
  · intro env st ops h
    induction ops generalizing st with
    | nil => simpa [runGets] using h
    | cons o os ih =>
      have h1 : runGets env st (o :: os) = runGets env (font_cache_get env st o).2 os := by
        simp [runGets]
      rw [h1]
      exact ih _ (font_cache_get_WF env st o h)
  · intro env st c hwf h64 hfind d hd
    obtain ⟨hrr, hc⟩ := font_cache_get_miss_cache env st c d hfind hd
    have h64' : 64 ≤ st.cache.length := le_of_eq h64.symm
    rw [if_pos h64'] at hc
    have hnotmem : c ∉ cacheKeys st.cache := (cacheFind_eq_none_iff _ _).1 hfind
    obtain ⟨x, tl, hcc⟩ : ∃ x tl, st.cache = x :: tl := by
      cases hcs : st.cache with
      | nil => rw [hcs] at h64; simp at h64
      | cons a b => exact ⟨a, b, rfl⟩
    have hpw := hwf.1
    rw [hcc, cacheKeys_cons, List.pairwise_cons] at hpw
    have hhead : ∀ k ∈ cacheKeys tl, x.1 < k := hpw.1
    have htail : st.cache.tail = tl := by rw [hcc]; rfl
    rw [htail] at hc
    have hcnt : c ∉ cacheKeys tl := by
      intro hmem
      exact hnotmem (by rw [hcc, cacheKeys_cons]; exact List.mem_cons_of_mem _ hmem)
    constructor
    · rw [hc, cacheInsert_length_of_not_mem tl (c, d) hcnt]
      have : tl.length = 63 := by rw [hcc] at h64; simp at h64; omega
      omega
    · refine ⟨x.1, ?_, ?_, ?_, ?_⟩
      · rw [hcc, cacheKeys_cons]; exact List.mem_cons_self _ _
      · intro k hk
        rw [hcc, cacheKeys_cons, List.mem_cons] at hk
        rcases hk with rfl | hk
        · exact le_refl _
        · exact le_of_lt (hhead k hk)
      · rw [hc]
        intro hmem
        rcases (mem_cacheKeys_cacheInsert tl (c, d) x.1).1 hmem with hx | hx
        · exact hnotmem (by rw [hcc, cacheKeys_cons, hx]; exact List.mem_cons_self _ _)
        · exact absurd (hhead x.1 hx) (lt_irrefl _)
      · intro k
        rw [hc, mem_cacheKeys_cacheInsert]
        constructor
        · rintro (rfl | hk)
          · exact Or.inr rfl
          · refine Or.inl ⟨by rw [hcc, cacheKeys_cons]; exact List.mem_cons_of_mem _ hk, ?_⟩
            intro hkx
            exact absurd (hhead k hk) (by rw [hkx]; exact lt_irrefl _)
        · rintro (⟨hk, hne⟩ | rfl)
          · rw [hcc, cacheKeys_cons, List.mem_cons] at hk
            rcases hk with rfl | hk
            · exact absurd rfl hne
            · exact Or.inr hk
          · exact Or.inl rfl

/-- Witness for C1: a concrete full cache with keys `1..64`; a miss on code
`0xA1A1 = 41377` keeps the count at 64. -/
theorem hz_cache_bound_and_eviction_witness :
    CacheWF stW64 ∧ (font_cache_get envW stW64 41377).2.cache.length = 64 :=
  ⟨by decide,
    (hz_cache_bound_and_eviction.2 envW stW64 41377 (by decide) (by decide)
      (by decide) [255] (by decide)).1⟩

/-- C3: if a `get` for code `c` returns a bitmap, then a second consecutive
`get(c)` returns a bitmap with identical content and leaves the state —
including the I/O call counter — completely unchanged (pure cache hit, no
open/seek/read); under the hypotheses that the record is present in the file
and allocation and open succeed, the first call does return a bitmap. -/
theorem hz_get_twice_deterministic_no_io :
    ∀ (env : HzEnv) (st : HzState) (c : Nat),
      env.allocOk = true → env.openOk = true →
      hz_seek env.R c + env.R ≤ env.file.length →
      ∃ bm, (font_cache_get env st c).1 = some bm ∧
        font_cache_get env (font_cache_get env st c).2 c =
          (some bm, (font_cache_get env st c).2) ∧
        (font_cache_get env (font_cache_get env st c).2 c).2.io =
          (font_cache_get env st c).2.io := by
  intro env st c ha ho hrec
  have hsome : ∃ bm, (font_cache_get env st c).1 = some bm := by
    cases hfind : cacheFind st.cache c with
    | some d => exact ⟨d, by rw [font_cache_get_hit env st c d hfind]⟩
    | none =>
      refine ⟨(env.file.drop (hz_seek env.R c)).take env.R, ?_⟩
      apply font_cache_get_miss_success env st c _ hfind ha ?_ (Or.inr ho)
      unfold readRecord
      rw [if_pos hrec]
  obtain ⟨bm, hbm⟩ := hsome
  have hcached := font_cache_get_some_cached env st c bm hbm
  refine ⟨bm, hbm, ?_, ?_⟩
  · exact font_cache_get_hit env _ c bm hcached
  · rw [font_cache_get_hit env _ c bm hcached]

/-- Witness for C3: code `0xA1A1` in the one-record file of `envW`. -/
theorem hz_get_twice_deterministic_no_io_witness :
    hz_seek envW.R 41377 + envW.R ≤ envW.file.length ∧
    ∃ bm, (font_cache_get envW st0 41377).1 = some bm ∧
      font_cache_get envW (font_cache_get envW st0 41377).2 41377 =
        (some bm, (font_cache_get envW st0 41377).2) ∧
      (font_cache_get envW (font_cache_get envW st0 41377).2 41377).2.io =
        (font_cache_get envW st0 41377).2.io :=
  ⟨by decide, hz_get_twice_deterministic_no_io envW st0 41377 rfl rfl (by decide)⟩

/-- C4: `get(code)` returns `none` exactly when the lookup misses and either
the entry allocation fails, the font file cannot be opened, or the
seek-and-read does not deliver a full `R`-byte record; in every such failure
case the cache map (hence the live count) is left unchanged. -/
theorem hz_get_none_characterization :
    ∀ (env : HzEnv) (st : HzState) (c : Nat),
      ((font_cache_get env st c).1 = none ↔
        cacheFind st.cache c = none ∧
          (env.allocOk = false ∨ (st.fdOpen = false ∧ env.openOk = false) ∨
            readRecord env.file env.R (hz_seek env.R c) = none)) ∧
      ((font_cache_get env st c).1 = none →
        (font_cache_get env st c).2.cache = st.cache ∧
        (font_cache_get env st c).2.cache.length = st.cache.length) := by
  intro env st c
  constructor
  · cases hfind : cacheFind st.cache c with
    | some d =>
      rw [font_cache_get_hit env st c d hfind]
      simp
    | none =>
      unfold font_cache_get
      rw [hfind]
      by_cases ha : env.allocOk
      · simp only [if_pos ha]
        by_cases hf : st.fdOpen
        · simp only [if_pos hf, loadInsert_fst]
          cases hrr : readRecord env.file env.R (hz_seek env.R c) with
          | none => simp [ha, hf, hrr]
          | some d => simp [ha, hf, hrr]
        · by_cases ho : env.openOk
          · simp only [if_neg hf, if_pos ho, loadInsert_fst]
            cases hrr : readRecord env.file env.R (hz_seek env.R c) with
            | none => simp [ha, ho, hrr]
            | some d => simp [ha, ho, hrr]
          · simp only [if_neg hf, if_neg ho]
            simp [ha, Bool.not_eq_true] at hf ho ⊢
            exact Or.inl ⟨hf, ho⟩
      · simp only [if_neg ha]
        simp [Bool.not_eq_true] at ha ⊢
        exact Or.inl ha
  · intro h
    exact ⟨font_cache_get_fst_none_cache env st c h,
      by rw [font_cache_get_fst_none_cache env st c h]⟩

/-- Witness for C4: the failing allocator of `envFail` yields `none` and
leaves the empty cache unchanged. -/
theorem hz_get_none_characterization_witness :
    (font_cache_get envFail st0 41377).1 = none ∧
    (font_cache_get envFail st0 41377).2.cache = st0.cache :=
  ⟨(hz_get_none_characterization envFail st0 41377).1.mpr (by decide),
    ((hz_get_none_characterization envFail st0 41377).2 (by decide)).1⟩

/-- C2 counterexample: under the addressing arithmetic actually computed by
`_font_cache_get`, glyph code `0xA2A1` (low byte `0xA1`, high byte `0xA2`)
yields index 1 and offset `R`, not index 94 and offset `94*R` as the claim
states. -/
theorem hz_offset_claim_counterexample :
    hz_idx 0xA1A1 = 0 ∧ hz_idx 0xA2A1 = 1 ∧
    hz_seek 32 0xA2A1 = 32 ∧ hz_seek 32 0xA2A1 ≠ 94 * 32 := by decide

/-- C2 amended: code `0xA1A1` yields index 0 and offset 0; code `0xA2A1`
yields index 1 and offset `R`; the code whose 16-bit value is `0xA1A2`
(i.e. the GB2312 byte pair `(0xA2, 0xA1)` assembled low-byte-first) yields
index 94 and offset `94*R`. -/
theorem hz_offset_amended :
    ∀ R : Nat, 94 * R < W →
      hz_idx 0xA1A1 = 0 ∧ hz_seek R 0xA1A1 = 0 ∧
      hz_idx 0xA2A1 = 1 ∧ hz_seek R 0xA2A1 = R % W ∧
      hz_idx 0xA1A2 = 94 ∧ hz_seek R 0xA1A2 = 94 * R := by
  intro R hR
  have h0 : hz_idx 0xA1A1 = 0 := by decide
  have h1 : hz_idx 0xA2A1 = 1 := by decide
  have h94 : hz_idx 0xA1A2 = 94 := by decide
  refine ⟨h0, ?_, h1, ?_, h94, ?_⟩
  · unfold hz_seek
    rw [h0]
    simp [W]
  · unfold hz_seek
    rw [h1]
    norm_num [W]
  · unfold hz_seek
    rw [h94]
    have ht : (((94 : Int)) % ((W : Nat) : Int)).toNat = 94 := by decide
    rw [ht]
    exact Nat.mod_eq_of_lt hR

/-- Witness for C2's amended theorem at `R = 32`. -/
theorem hz_offset_amended_witness :
    hz_idx 0xA1A1 = 0 ∧ hz_seek 32 0xA1A1 = 0 ∧
    hz_idx 0xA2A1 = 1 ∧ hz_seek 32 0xA2A1 = 32 % W ∧
    hz_idx 0xA1A2 = 94 ∧ hz_seek 32 0xA1A2 = 94 * 32 :=
  hz_offset_amended 32 (by decide)

/-- C9 counterexample: for a 16-pixel font and a transcoded length of
`2^29` bytes the 32-bit product `8 * 2^29` wraps to 0 before the `0x7FFF`
saturation test, so the computed width is 0, not the saturated `0x7FFF`
the claim promises ("saturating instead of overflowing or wrapping"). -/
theorem hz_metrics_saturation_counterexample :
    (rtgui_hz_file_font_get_metrics 16 536870912).x2 = 0 ∧
    0x7FFF < 16 / 2 * 536870912 ∧ ((0 : Int) ≠ 0x7FFF) := by decide

/-- C9 amended: the metrics rectangle has `x1 = y1 = 0`, height `y2 = S`,
and width `x2 = min((S/2 * len) mod 2^32, 0x7FFF)`: the saturation at
`0x7FFF` applies to the 32-bit-wrapped product, hence behaves as the claim
states exactly when `S/2 * len < 2^32`; a 16-pixel font with 4 transcoded
bytes gives width 32 and height 16. -/
theorem hz_metrics_amended :
    ∀ S len : Nat,
      (rtgui_hz_file_font_get_metrics S len).x1 = 0 ∧
      (rtgui_hz_file_font_get_metrics S len).y1 = 0 ∧
      (rtgui_hz_file_font_get_metrics S len).y2 = (S : Int) ∧
      hz_metrics_x2 S len = min ((S / 2 * len) % W) 0x7FFF ∧
      (S / 2 * len < W → hz_metrics_x2 S len = min (S / 2 * len) 0x7FFF) ∧
      (rtgui_hz_file_font_get_metrics 16 4).x2 = 32 ∧
      (rtgui_hz_file_font_get_metrics 16 4).y2 = 16 := by
  intro S len
  have hmin : hz_metrics_x2 S len = min ((S / 2 * len) % W) 0x7FFF := by
    show (if 0x7FFF ≤ (S / 2 * len) % W then 0x7FFF else (S / 2 * len) % W) =
      min ((S / 2 * len) % W) 0x7FFF
    split <;> omega
  refine ⟨rfl, rfl, rfl, hmin, ?_, by decide, by decide⟩
  intro h
  rw [hmin, Nat.mod_eq_of_lt h]

/-- Witness for C9's amended theorem at `S = 16`, `len = 4`. -/
theorem hz_metrics_amended_witness :
    hz_metrics_x2 16 4 = min (16 / 2 * 4) 0x7FFF :=
  (hz_metrics_amended 16 4).2.2.2.2.1 (by decide)

/-! ### Segmentation lemmas (C5) -/

lemma runJoin_append (A B : List (Bool × List Nat)) :
    runJoin (A ++ B) = runJoin A ++ runJoin B := by
  simp [runJoin]

lemma runJoin_nil : runJoin [] = [] := rfl

lemma runJoin_single (k : Bool) (xs : List Nat) : runJoin [(k, xs)] = xs := by
  simp [runJoin]

lemma runJoin_if (k : Bool) (xs : List Nat) :
    runJoin (if xs.isEmpty then [] else [(k, xs)]) = xs := by
  cases xs with
  | nil => rfl
  | cons y ys => simp [runJoin]

/-- The head of `dropWhile p l` fails `p`. -/
lemma dropWhile_head_not (p : Nat → Bool) : ∀ (l : List Nat) (c : Nat) (cs : List Nat),
    l.dropWhile p = c :: cs → p c = false := by
  intro l
  induction l with
  | nil => intro c cs h; simp [List.dropWhile] at h
  | cons x xs ihl =>
    intro c cs h
    by_cases hx : p x
    · rw [List.dropWhile_cons_of_pos hx] at h
      exact ihl c cs h
    · rw [List.dropWhile_cons_of_neg hx] at h
      injection h with h1 h2
      subst h1
      simp [Bool.not_eq_true] at hx
      exact hx

/-- Membership in the conditional singleton emitted for one run. -/
lemma mem_if_run {r : Bool × List Nat} {k : Bool} {xs : List Nat}
    (h : r ∈ (if xs.isEmpty then ([] : List (Bool × List Nat)) else [(k, xs)])) :
    r = (k, xs) ∧ xs ≠ [] := by
  cases xs with
  | nil => simp at h
  | cons y ys =>
    simp at h
    exact ⟨h, by simp⟩

lemma segLoop_nil (fuel : Nat) : segLoop fuel [] = [] := by
  cases fuel <;> rfl

lemma segLoop_cons (fuel : Nat) (b : Nat) (t : List Nat) :
    segLoop (fuel + 1) (b :: t) =
      (if ((b :: t).takeWhile asciiByte).isEmpty then []
       else [(false, (b :: t).takeWhile asciiByte)]) ++
      ((if (((b :: t).dropWhile asciiByte).takeWhile hzByte).isEmpty then []
        else [(true, ((b :: t).dropWhile asciiByte).takeWhile hzByte)]) ++
        segLoop fuel (((b :: t).dropWhile asciiByte).dropWhile hzByte)) := by
  rfl

/-- When the current buffer starts with an ASCII byte, the first emitted run
is an ASCII run. -/
lemma segLoop_head_false (fuel : Nat) (c : Nat) (cs : List Nat)
    (hc : asciiByte c = true) :
    ∀ r ∈ (segLoop fuel (c :: cs)).head?, r.1 = false := by
  cases fuel with
  | zero => intro r hr; simp [segLoop] at hr
  | succ fuel =>
    intro r hr
    rw [segLoop_cons] at hr
    rw [List.takeWhile_cons_of_pos hc] at hr
    simp at hr
    simp [← hr]

/-- Main induction for the segmentation loop: on NUL-free input with enough
fuel, the runs concatenate back to the input, every run is non-empty and
homogeneous for its kind, and the kinds strictly alternate. -/
lemma segLoop_spec : ∀ (fuel : Nat) (l : List Nat), l.length ≤ fuel → (0 : Nat) ∉ l →
    runJoin (segLoop fuel l) = l ∧
    (∀ r ∈ segLoop fuel l, r.2 ≠ [] ∧
      ∀ b ∈ r.2, (r.1 = true → 0x80 ≤ b) ∧ (r.1 = false → b < 0x80)) ∧
    (segLoop fuel l).Chain' (fun r s => r.1 ≠ s.1) := by
  intro fuel
  induction fuel with
  | zero =>
    intro l hlen _
    have hl : l = [] := List.eq_nil_of_length_eq_zero (Nat.le_zero.mp hlen)
    subst hl
    exact ⟨rfl, by simp [segLoop], by simp [segLoop]⟩
  | succ fuel ih =>
    intro l hlen hnul
    cases l with
    | nil => exact ⟨rfl, by simp [segLoop], by simp [segLoop]⟩
    | cons b t =>
      have hb0 : b ≠ 0 := fun h => hnul (h ▸ List.mem_cons_self b t)
      rw [segLoop_cons]
      set a := (b :: t).takeWhile asciiByte with ha
      set r1 := (b :: t).dropWhile asciiByte with hr1
      set d := r1.takeWhile hzByte with hd
      set r2 := r1.dropWhile hzByte with hr2
      have hjoin1 : a ++ r1 = b :: t := by
        rw [ha, hr1]; exact List.takeWhile_append_dropWhile asciiByte (b :: t)
      have hjoin2 : d ++ r2 = r1 := by
        rw [hd, hr2]; exact List.takeWhile_append_dropWhile hzByte r1
      have s2 : r2.Sublist r1 := by rw [hr2]; exact List.dropWhile_sublist _
      have s1 : r1.Sublist (b :: t) := by rw [hr1]; exact List.dropWhile_sublist _
      have hmem_a : ∀ x ∈ a, x < 0x80 := by
        intro x hx
        rw [ha] at hx
        have hax := List.mem_takeWhile_imp hx
        simp [asciiByte] at hax
        exact hax.1
      have hmem_d : ∀ x ∈ d, 0x80 ≤ x := by
        intro x hx
        rw [hd] at hx
        have hdx := List.mem_takeWhile_imp hx
        simp [hzByte] at hdx
        omega
      have hprog : r2.length ≤ t.length := by
        cases hab : asciiByte b with
        | true =>
          have hr1t : r1 = t.dropWhile asciiByte := by
            rw [hr1, List.dropWhile_cons_of_pos hab]
          calc r2.length ≤ r1.length := s2.length_le
            _ = (t.dropWhile asciiByte).length := by rw [hr1t]
            _ ≤ t.length := (List.dropWhile_sublist _).length_le
        | false =>
          have hblt : ¬ b < 0x80 := by
            intro hlt
            simp [asciiByte] at hab
            exact hb0 (hab hlt)
          have hbhz : hzByte b = true := by simp [hzByte]; omega
          have hr1eq : r1 = b :: t := by
            rw [hr1, List.dropWhile_cons_of_neg (by rw [hab]; simp)]
          have hr2eq : r2 = t.dropWhile hzByte := by
            rw [hr2, hr1eq, List.dropWhile_cons_of_pos hbhz]
          rw [hr2eq]
          exact (List.dropWhile_sublist _).length_le
      have hlen2 : r2.length ≤ fuel := by
        simp only [List.length_cons] at hlen
        omega
      have hnr2 : (0 : Nat) ∉ r2 := fun h => hnul (s1.subset (s2.subset h))
      obtain ⟨ihj, ihw, ihc⟩ := ih r2 hlen2 hnr2
      -- an empty double-byte run forces the remainder to be empty
      have hd_nil : d.isEmpty = true → r1 = [] := by
        intro hde
        cases hr1c : r1 with
        | nil => rfl
        | cons c cs =>
          exfalso
          have hcfail : asciiByte c = false :=
            dropWhile_head_not asciiByte (b :: t) c cs (by rw [← hr1, hr1c])
          have hcm : c ∈ b :: t := s1.subset (by rw [hr1c]; exact List.mem_cons_self c cs)
          have hc0 : c ≠ 0 := fun h => hnul (h ▸ hcm)
          have hdeq : d = (c :: cs).takeWhile hzByte := by rw [hd, hr1c]
          by_cases hhz : hzByte c
          · rw [List.takeWhile_cons_of_pos hhz] at hdeq
            rw [hdeq] at hde
            simp at hde
          · simp [asciiByte] at hcfail
            simp [hzByte] at hhz
            exact hc0 (hcfail hhz)
      refine ⟨?_, ?_, ?_⟩
      · -- concatenation restores the input
        rw [runJoin_append, runJoin_append, runJoin_if, runJoin_if, ihj]
        rw [hjoin2, hjoin1]
      · -- runs are non-empty and homogeneous
        intro r hr
        rcases List.mem_append.mp hr with h | h
        · obtain ⟨rfl, hne⟩ := mem_if_run h
          refine ⟨hne, ?_⟩
          intro x hx
          exact ⟨(fun hcontra => nomatch hcontra), fun _ => hmem_a x hx⟩
        · rcases List.mem_append.mp h with h2 | h2
          · obtain ⟨rfl, hne⟩ := mem_if_run h2
            refine ⟨hne, ?_⟩
            intro x hx
            exact ⟨fun _ => hmem_d x hx, (fun hcontra => nomatch hcontra)⟩
          · exact ihw r h2
      · -- kinds strictly alternate
        by_cases hde : d.isEmpty
        · have hr1n : r1 = [] := hd_nil hde
          have hr2n : r2 = [] := by rw [hr2, hr1n]; rfl
          rw [if_pos hde, hr2n, segLoop_nil]
          by_cases hae : a.isEmpty
          · rw [if_pos hae]; simp
          · rw [if_neg hae]; simp
        · rw [if_neg hde]
          have hheadC : ∀ r ∈ (segLoop fuel r2).head?, r.1 = false := by
            cases hr2c : r2 with
            | nil => intro r hr; rw [segLoop_nil] at hr; simp at hr
            | cons c cs =>
              have hcfail : hzByte c = false :=
                dropWhile_head_not hzByte r1 c cs (by rw [← hr2, hr2c])
              have hcm : c ∈ b :: t :=
                s1.subset (s2.subset (by rw [hr2c]; exact List.mem_cons_self c cs))
              have hc0 : c ≠ 0 := fun h => hnul (h ▸ hcm)
              have hca : asciiByte c = true := by
                simp [hzByte] at hcfail
                simp [asciiByte]
                exact ⟨hcfail, hc0⟩
              exact segLoop_head_false fuel c cs hca
          have hchainBC :
              ((true, d) :: segLoop fuel r2).Chain' (fun r s => r.1 ≠ s.1) := by
            rw [List.chain'_cons']
            refine ⟨fun y hy => ?_, ihc⟩
            rw [hheadC y hy]
            simp
          by_cases hae : a.isEmpty
          · rw [if_pos hae]
            simpa using hchainBC
          · rw [if_neg hae]
            have hfull :
                ((false, a) :: (true, d) :: segLoop fuel r2).Chain'
                  (fun r s => r.1 ≠ s.1) := by
              rw [List.chain'_cons]
              exact ⟨by simp, hchainBC⟩
            simpa using hfull

/-- C5: on every NUL-free byte string the draw-text segmentation loop
produces non-empty runs, each homogeneous for its kind (bytes `< 0x80` for
ASCII runs, `≥ 0x80` for double-byte runs), whose kinds strictly alternate
(hence each run is maximal) and whose concatenation, in order, is exactly
the original byte string. -/
theorem hz_segmentation_spec :
    ∀ l : List Nat, (0 : Nat) ∉ l →
      runJoin (segment l) = l ∧
      (∀ r ∈ segment l, r.2 ≠ [] ∧
        ∀ b ∈ r.2, (r.1 = true → 0x80 ≤ b) ∧ (r.1 = false → b < 0x80)) ∧
      (segment l).Chain' (fun r s => r.1 ≠ s.1) :=
  fun l h => segLoop_spec l.length l (le_refl _) h

/-- Witness for C5: the spec's example `[0x41, 0xB0, 0xA1, 0x42]` splits
into `"A"`, the double-byte pair `B0 A1`, and `"B"`. -/
theorem hz_segmentation_spec_witness :
    segment [0x41, 0xB0, 0xA1, 0x42] =
      [(false, [0x41]), (true, [0xB0, 0xA1]), (false, [0x42])] ∧
    runJoin (segment [0x41, 0xB0, 0xA1, 0x42]) = [0x41, 0xB0, 0xA1, 0x42] :=
  ⟨by decide, (hz_segmentation_spec [0x41, 0xB0, 0xA1, 0x42] (by decide)).1⟩

/-! ### Rasterizer lemmas (C7, C10) -/

/-- Characterization of the pixel events emitted for one glyph: an event is
emitted for position `(i, j, k)` exactly per the set-bit/clip test of
font_hz_file.c:197-205. -/
lemma mem_glyphEvents_iff (bmp : Bitmap) (h wb : Nat) (bg : Bool) (x1 y1 x2 : Int)
    (e : DrawEvent) :
    e ∈ glyphEvents bmp h wb bg x1 y1 x2 ↔
      ∃ i j k : Nat, i < h ∧ j < wb ∧ k < 8 ∧
        e.x = x1 + 8 * (j : Int) + (k : Int) ∧ e.y = y1 + (i : Int) ∧
        (if ((bmp.getD (i * wb + j) 0) >>> (7 - k)) % 2 = 1 ∧
            x1 + 8 * (j : Int) + (k : Int) < x2
         then e.fg = true
         else bg = true ∧ e.fg = false) := by
  obtain ⟨efg, ex, ey⟩ := e
  unfold glyphEvents
  constructor
  · intro hmem
    simp only [List.mem_flatMap, List.mem_range, List.mem_filterMap] at hmem
    obtain ⟨i, hi, j, hj, k, hk, hok⟩ := hmem
    refine ⟨i, j, k, hi, hj, hk, ?_⟩
    by_cases hcond : ((bmp.getD (i * wb + j) 0) >>> (7 - k)) % 2 = 1 ∧
        x1 + 8 * (j : Int) + (k : Int) < x2
    · rw [if_pos hcond] at hok
      cases Option.some.inj hok
      exact ⟨rfl, rfl, by rw [if_pos hcond]⟩
    · rw [if_neg hcond] at hok
      by_cases hbg : bg
      · rw [if_pos hbg] at hok
        cases Option.some.inj hok
        exact ⟨rfl, rfl, by rw [if_neg hcond]; exact ⟨hbg, rfl⟩⟩
      · rw [if_neg hbg] at hok
        exact absurd hok (by simp)
  · rintro ⟨i, j, k, hi, hj, hk, hex, hey, hcond⟩
    simp only [List.mem_flatMap, List.mem_range, List.mem_filterMap]
    refine ⟨i, hi, j, hj, k, hk, ?_⟩
    by_cases hc : ((bmp.getD (i * wb + j) 0) >>> (7 - k)) % 2 = 1 ∧
        x1 + 8 * (j : Int) + (k : Int) < x2
    · rw [if_pos hc] at hcond ⊢
      dsimp only at hex hey hcond
      rw [hex, hey, hcond]
    · rw [if_neg hc] at hcond ⊢
      obtain ⟨hbg, hfg⟩ := hcond
      rw [if_pos hbg]
      dsimp only at hex hey hfg
      rw [hex, hey, hfg]

/-- C7: the rasterizer visits rows `0..min(S, rect height)`, byte-columns
`0..ceil(S/8)` and bits `0..8` most-significant-first; it paints a
foreground pixel at `(x1 + 8*col + bit, y1 + row)` exactly when the bit is
set and the x coordinate lies left of `rect.x2`, and otherwise paints a
background pixel there exactly when the background-fill style is set; the
8×8 glyph with a single set bit at row 0, column 0 produces exactly one
foreground pixel at `(x1, y1)` and, with background fill, 63 background
pixels. -/
theorem hz_rasterizer_spec :
    (∀ (S : Nat) (y1 y2 : Int), hz_draw_height S y1 y2 = min (S : Int) (y2 - y1)) ∧
    (∀ (bmp : Bitmap) (h wb : Nat) (bg : Bool) (x1 y1 x2 : Int) (i j k : Nat),
        i < h → j < wb → k < 8 →
        ((DrawEvent.mk true (x1 + 8 * (j : Int) + (k : Int)) (y1 + (i : Int)) ∈
            glyphEvents bmp h wb bg x1 y1 x2) ↔
          (((bmp.getD (i * wb + j) 0) >>> (7 - k)) % 2 = 1 ∧
            x1 + 8 * (j : Int) + (k : Int) < x2)) ∧
        ((DrawEvent.mk false (x1 + 8 * (j : Int) + (k : Int)) (y1 + (i : Int)) ∈
            glyphEvents bmp h wb bg x1 y1 x2) ↔
          (bg = true ∧ ¬(((bmp.getD (i * wb + j) 0) >>> (7 - k)) % 2 = 1 ∧
            x1 + 8 * (j : Int) + (k : Int) < x2)))) ∧
    ((glyphEvents [0x80, 0, 0, 0, 0, 0, 0, 0] 8 1 true 0 0 16).filter
        (fun e => e.fg) = [⟨true, 0, 0⟩] ∧
      ((glyphEvents [0x80, 0, 0, 0, 0, 0, 0, 0] 8 1 true 0 0 16).filter
        (fun e => !e.fg)).length = 63) := by
  refine ⟨?_, ?_, by decide, by decide⟩
  · intro S y1 y2
    unfold hz_draw_height
    split <;> omega
  · intro bmp h wb bg x1 y1 x2 i j k hi hj hk
    constructor
    · constructor
      · intro hmem
        rw [mem_glyphEvents_iff] at hmem
        obtain ⟨i', j', k', hi', hj', hk', hex, hey, hcond⟩ := hmem
        dsimp only at hex hey hcond
        have hjj : j = j' := by omega
        have hkk : k = k' := by omega
        have hii : i = i' := by omega
        subst hjj; subst hkk; subst hii
        by_cases hc : ((bmp.getD (i * wb + j) 0) >>> (7 - k)) % 2 = 1 ∧
            x1 + 8 * (j : Int) + (k : Int) < x2
        · exact hc
        · rw [if_neg hc] at hcond
          exact absurd hcond.2 (by simp)
      · intro hc
        rw [mem_glyphEvents_iff]
        exact ⟨i, j, k, hi, hj, hk, rfl, rfl, by rw [if_pos hc]⟩
    · constructor
      · intro hmem
        rw [mem_glyphEvents_iff] at hmem
        obtain ⟨i', j', k', hi', hj', hk', hex, hey, hcond⟩ := hmem
        dsimp only at hex hey hcond
        have hjj : j = j' := by omega
        have hkk : k = k' := by omega
        have hii : i = i' := by omega
        subst hjj; subst hkk; subst hii
        by_cases hc : ((bmp.getD (i * wb + j) 0) >>> (7 - k)) % 2 = 1 ∧
            x1 + 8 * (j : Int) + (k : Int) < x2
        · rw [if_pos hc] at hcond
          exact absurd hcond (by simp)
        · rw [if_neg hc] at hcond
          exact ⟨hcond.1, hc⟩
      · rintro ⟨hbg, hc⟩
        rw [mem_glyphEvents_iff]
        exact ⟨i, j, k, hi, hj, hk, rfl, rfl, by rw [if_neg hc]; exact ⟨hbg, rfl⟩⟩

/-- Witness for C7: the single set bit of the example glyph, at row 0,
column 0, bit 0, is painted as a foreground pixel at `(0, 0)`. -/
theorem hz_rasterizer_spec_witness :
    DrawEvent.mk true 0 0 ∈ glyphEvents [0x80, 0, 0, 0, 0, 0, 0, 0] 8 1 true 0 0 16 :=
  ((hz_rasterizer_spec.2.1 [0x80, 0, 0, 0, 0, 0, 0, 0] 8 1 true 0 0 16 0 0 0
    (by decide) (by decide) (by decide)).1).mpr (by decide)

/-- C10: the clip test against `rect.x2` applies only to foreground pixels:
with the background-fill style set, a background pixel is painted at every
visited position whose bit is unset or whose set bit lies at
`x1 + 8*col + bit ≥ rect.x2` — including positions beyond the clip
rectangle's right edge — while every foreground pixel satisfies `x < x2`. -/
theorem hz_background_unclipped :
    (∀ (bmp : Bitmap) (h wb : Nat) (x1 y1 x2 : Int) (i j k : Nat),
        i < h → j < wb → k < 8 →
        ¬(((bmp.getD (i * wb + j) 0) >>> (7 - k)) % 2 = 1 ∧
            x1 + 8 * (j : Int) + (k : Int) < x2) →
        DrawEvent.mk false (x1 + 8 * (j : Int) + (k : Int)) (y1 + (i : Int)) ∈
          glyphEvents bmp h wb true x1 y1 x2) ∧
    (∀ (bmp : Bitmap) (h wb : Nat) (bg : Bool) (x1 y1 x2 : Int) (e : DrawEvent),
        e ∈ glyphEvents bmp h wb bg x1 y1 x2 → e.fg = true → e.x < x2) ∧
    (DrawEvent.mk false 5 0 ∈ glyphEvents [0xFF] 1 1 true 0 0 4) := by
  refine ⟨?_, ?_, by decide⟩
  · intro bmp h wb x1 y1 x2 i j k hi hj hk hc
    rw [mem_glyphEvents_iff]
    exact ⟨i, j, k, hi, hj, hk, rfl, rfl, by rw [if_neg hc]; exact ⟨rfl, rfl⟩⟩
  · intro bmp h wb bg x1 y1 x2 e hmem hfg
    rw [mem_glyphEvents_iff] at hmem
    obtain ⟨i, j, k, hi, hj, hk, hex, hey, hcond⟩ := hmem
    by_cases hc : ((bmp.getD (i * wb + j) 0) >>> (7 - k)) % 2 = 1 ∧
        x1 + 8 * (j : Int) + (k : Int) < x2
    · rw [hex]
      exact hc.2
    · rw [if_neg hc] at hcond
      rw [hcond.2] at hfg
      exact absurd hfg (by simp)

/-- Witness for C10: with the all-unset byte, the background pixel at
`x = 6` is painted although the clip edge is `x2 = 4`. -/
theorem hz_background_unclipped_witness :
    DrawEvent.mk false 6 0 ∈ glyphEvents [0] 1 1 true 0 0 4 :=
  hz_background_unclipped.1 [0] 1 1 0 0 4 0 0 6
    (by decide) (by decide) (by decide) (by decide)

/-! ### Run-loop lemmas (C6, C8) -/

/-- One unfolding of the per-run loop at non-zero fuel. -/
lemma draw_hz_loop_succ (env : HzEnv) (bg : Bool) (h wb : Nat) (y1 x2 : Int)
    (fuel : Nat) (st : HzState) (buf : List Nat) (pos len : Nat) (x1 : Int) :
    draw_hz_loop env bg h wb y1 x2 (fuel + 1) st buf pos len x1 =
      if 0 < len ∧ x1 < x2 then
        ⟨(match (font_cache_get env st (buf.getD pos 0 ||| (buf.getD (pos + 1) 0 <<< 8))).1 with
            | some bmp => glyphEvents bmp h wb bg x1 y1 x2
            | none => []) ++
            (draw_hz_loop env bg h wb y1 x2 fuel
              (font_cache_get env st (buf.getD pos 0 ||| (buf.getD (pos + 1) 0 <<< 8))).2 buf
              (pos + 2) ((len + (W - 2)) % W) (x1 + (env.S : Int))).events,
          pos :: (pos + 1) ::
            (draw_hz_loop env bg h wb y1 x2 fuel
              (font_cache_get env st (buf.getD pos 0 ||| (buf.getD (pos + 1) 0 <<< 8))).2 buf
              (pos + 2) ((len + (W - 2)) % W) (x1 + (env.S : Int))).reads,
          (draw_hz_loop env bg h wb y1 x2 fuel
            (font_cache_get env st (buf.getD pos 0 ||| (buf.getD (pos + 1) 0 <<< 8))).2 buf
            (pos + 2) ((len + (W - 2)) % W) (x1 + (env.S : Int))).st,
          (draw_hz_loop env bg h wb y1 x2 fuel
            (font_cache_get env st (buf.getD pos 0 ||| (buf.getD (pos + 1) 0 <<< 8))).2 buf
            (pos + 2) ((len + (W - 2)) % W) (x1 + (env.S : Int))).x1,
          (draw_hz_loop env bg h wb y1 x2 fuel
            (font_cache_get env st (buf.getD pos 0 ||| (buf.getD (pos + 1) 0 <<< 8))).2 buf
            (pos + 2) ((len + (W - 2)) % W) (x1 + (env.S : Int))).pairs + 1⟩
      else ⟨[], [], st, x1, 0⟩ := rfl

/-- C8: over every double-byte run the loop advances `x1` by exactly `S`
per processed glyph pair, the number of processed pairs is
`min(len/2, steps-to-clip)` — so the loop terminates exactly when the run
is exhausted or `x1` reaches `rect.x2`, and a miss never aborts the run
(the pair count does not depend on the cache or the file) — and when every
`get` misses (failing allocator, empty cache) no pixel at all is drawn. -/
theorem hz_run_advance_and_termination :
    ∀ (env : HzEnv) (bg : Bool) (h wb : Nat) (y1 x2 : Int)
      (fuel : Nat) (st : HzState) (buf : List Nat) (pos len : Nat) (x1 : Int),
      1 ≤ env.S → 2 ∣ len → len < W → len / 2 < fuel →
      (draw_hz_loop env bg h wb y1 x2 fuel st buf pos len x1).x1 =
          x1 + (env.S : Int) *
            ((draw_hz_loop env bg h wb y1 x2 fuel st buf pos len x1).pairs : Int) ∧
      (draw_hz_loop env bg h wb y1 x2 fuel st buf pos len x1).pairs =
          min (len / 2) (stepsToClip x1 x2 env.S) ∧
      (env.allocOk = false → st.cache = [] →
        (draw_hz_loop env bg h wb y1 x2 fuel st buf pos len x1).events = []) := by
  intro env bg h wb y1 x2 fuel
  induction fuel with
  | zero =>
    intro st buf pos len x1 hS hdvd hltW hfuel
    exact absurd hfuel (by omega)
  | succ fuel ih =>
    intro st buf pos len x1 hS hdvd hltW hfuel
    by_cases hcond : 0 < len ∧ x1 < x2
    · have hW : W = 4294967296 := rfl
      have hlen2 : 2 ≤ len := by omega
      have hmod : (len + (W - 2)) % W = len - 2 := by
        have heq : len + (W - 2) = (len - 2) + W := by omega
        rw [heq, Nat.add_mod_right]
        exact Nat.mod_eq_of_lt (by omega)
      obtain ⟨ih1, ih2, ih3⟩ := ih
        (font_cache_get env st (buf.getD pos 0 ||| (buf.getD (pos + 1) 0 <<< 8))).2
        buf (pos + 2) (len - 2) (x1 + (env.S : Int))
        hS (by omega) (by omega) (by omega)
      rw [draw_hz_loop_succ, if_pos hcond, hmod]
      have hsteps : stepsToClip x1 x2 env.S =
          stepsToClip (x1 + (env.S : Int)) x2 env.S + 1 := by
        unfold stepsToClip
        rw [if_pos hcond.2]
        by_cases h2 : x1 + (env.S : Int) < x2
        · rw [if_pos h2]
          have h1 : (x2 - x1).toNat + env.S - 1 =
              ((x2 - (x1 + (env.S : Int))).toNat + env.S - 1) + env.S := by omega
          rw [h1, Nat.add_div_right _ (by omega)]
        · rw [if_neg h2]
          have h1 : (x2 - x1).toNat + env.S - 1 = ((x2 - x1).toNat - 1) + env.S := by
            omega
          rw [h1, Nat.add_div_right _ (by omega), Nat.div_eq_of_lt (by omega)]
      refine ⟨?_, ?_, ?_⟩
      · dsimp only
        rw [ih1]
        push_cast
        ring
      · dsimp only
        rw [ih2, hsteps]
        have hdiv : (len - 2) / 2 = len / 2 - 1 := by omega
        have hl2 : 1 ≤ len / 2 := by omega
        omega
      · intro hac hcache
        dsimp only
        have hget : font_cache_get env st
            (buf.getD pos 0 ||| (buf.getD (pos + 1) 0 <<< 8)) = (none, st) := by
          unfold font_cache_get
          rw [hcache]
          simp [cacheFind, hac]
        have hst2 : (font_cache_get env st
            (buf.getD pos 0 ||| (buf.getD (pos + 1) 0 <<< 8))).2 = st := by rw [hget]
        have hre := ih3 hac (by rw [hst2]; exact hcache)
        rw [hre, hget]
        simp
    · rw [draw_hz_loop_succ, if_neg hcond]
      refine ⟨by simp, ?_, fun _ _ => rfl⟩
      dsimp only
      unfold stepsToClip
      rcases not_and_or.mp hcond with hl | hx
      · have hl0 : len = 0 := by omega
        rw [hl0]
        simp
      · rw [if_neg (by omega : ¬ x1 < x2)]
        simp

/-- Witness for C8: an even 4-byte run with a wide clip rectangle processes
both pairs and advances `x1` by `2 * S = 32`. -/
theorem hz_run_advance_and_termination_witness :
    (draw_hz_loop envW false 8 1 0 100 3 st0 [0xB0, 0xA1, 0xB0, 0xA2] 0 4 0).x1 =
        0 + (envW.S : Int) *
          ((draw_hz_loop envW false 8 1 0 100 3 st0 [0xB0, 0xA1, 0xB0, 0xA2] 0 4 0).pairs : Int) ∧
    (draw_hz_loop envW false 8 1 0 100 3 st0 [0xB0, 0xA1, 0xB0, 0xA2] 0 4 0).pairs =
        min (4 / 2) (stepsToClip 0 100 envW.S) ∧
    (envW.allocOk = false → st0.cache = [] →
      (draw_hz_loop envW false 8 1 0 100 3 st0 [0xB0, 0xA1, 0xB0, 0xA2] 0 4 0).events = []) :=
  hz_run_advance_and_termination envW false 8 1 0 100 3 st0 [0xB0, 0xA1, 0xB0, 0xA2] 0 4 0
    (by decide) (by decide) (by decide) (by decide)

/-- C6 (code bug): on the odd-length double-byte run `[0xB0]` the loop
reads byte indices 1, 2 and 3 — all beyond the 1-byte run — because after
the first pair the unsigned length `1` wraps to `2^32 - 1` instead of
reaching 0, and the loop keeps consuming pairs until `x1` reaches
`rect.x2`. -/
theorem hz_odd_run_reads_out_of_bounds :
    (draw_hz_loop envW false 8 1 0 32 10 st0 [0xB0] 0 1 0).reads = [0, 1, 2, 3] ∧
    ([0xB0] : List Nat).length = 1 ∧
    (1 + (W - 2)) % W = W - 1 ∧
    (draw_hz_loop envW false 8 1 0 32 10 st0 [0xB0] 0 1 0).pairs = 2 := by decide

end HzFont
